import Mathlib

/-!
# Gemini File Analyzer — verification of the core tree algebra and tag propagation

Shallow embedding of the repository's core: the document tree (`types.ts`),
its id-addressed CRUD helpers (`updateNodeInTree`, `removeNodeFromTree`,
`findNodeInTree`, `findAllImageFiles`), the analysis caching handler
(`handleSelectNode`), the smart tag propagation workflow (`handleAddTag`,
`handlePropagateTag`, `propagateTagToSimilarImages`), and the debounced save
effect, together with the comparator boundary of `services/geminiService.ts`.

TypeScript objects become Lean structures; the `TreeNode[]` arrays of the
source become the `TreeList` type below (a mutual inductive with `TreeNode`,
so every traversal is structurally recursive and computable by the kernel);
optional fields become `Option`; the asynchronous handlers become pure
functions that take the external capabilities (analyzer, comparator) as
explicit `Except`-valued arguments so that both success and failure of an
external call are representable.
-/

/-- `AnalysisResult` from `types.ts`. -/
structure AnalysisResult where
  summary : String
  suggestedName : String
  tags : List String
  documentType : String
deriving Repr, DecidableEq

/-- `FileNode` from `types.ts` (the `type: 'file'` discriminant is carried by
the `TreeNode.file` constructor below). -/
structure FileNode where
  id : String
  name : String
  content : String
  mimeType : String
  path : String
  analysis : Option AnalysisResult
deriving Repr, DecidableEq

mutual
/-- `TreeNode = FileNode | FolderNode` from `types.ts`. -/
inductive TreeNode where
  | file (f : FileNode)
  | folder (id name path : String) (children : TreeList)

/-- A `TreeNode[]` array of the source: a sequence of tree nodes. -/
inductive TreeList where
  | nil
  | cons (head : TreeNode) (tail : TreeList)
end

/-- The `id` field common to both `TreeNode` variants. -/
def TreeNode.id : TreeNode → String
  | .file f => f.id
  | .folder i _ _ _ => i

/-- JavaScript's `String.prototype.startsWith`: a character-level prefix
test (modelled on the character list of the string, which is what JS
string semantics prescribes). -/
def jsStartsWith (s p : String) : Bool := p.data.isPrefixOf s.data

/-- `updateNodeInTree` from the app component: recursively find the node with
the given id and replace it by `updateFn` of it; all other nodes are kept,
folders are rebuilt with recursively updated children. -/
def updateNodeInTree (nodes : TreeList) (nodeId : String) (updateFn : TreeNode → TreeNode) :
    TreeList :=
  match nodes with
  | .nil => .nil
  | .cons node rest =>
    .cons
      (if node.id = nodeId then updateFn node
       else match node with
            | .folder i nm p children => .folder i nm p (updateNodeInTree children nodeId updateFn)
            | .file fl => .file fl)
      (updateNodeInTree rest nodeId updateFn)

/-- `removeNodeFromTree` from the app component: skip any node whose id
matches; rebuild folders with recursively filtered children. -/
def removeNodeFromTree (nodes : TreeList) (nodeId : String) : TreeList :=
  match nodes with
  | .nil => .nil
  | .cons node rest =>
    if node.id = nodeId then removeNodeFromTree rest nodeId
    else match node with
         | .folder i nm p children =>
             .cons (.folder i nm p (removeNodeFromTree children nodeId))
               (removeNodeFromTree rest nodeId)
         | .file fl => .cons (.file fl) (removeNodeFromTree rest nodeId)

/-- `findAllImageFiles` from the app component: all file nodes whose mime type
starts with `image/`, in pre-order. -/
def findAllImageFiles (nodes : TreeList) : List FileNode :=
  match nodes with
  | .nil => []
  | .cons (.file f) rest =>
      if jsStartsWith f.mimeType "image/" then f :: findAllImageFiles rest
      else findAllImageFiles rest
  | .cons (.folder _ _ _ children) rest =>
      findAllImageFiles children ++ findAllImageFiles rest

/-- `findNodeInTree` from the app component: pre-order depth-first search for
the first node with the given id. -/
def findNodeInTree (nodes : TreeList) (nodeId : String) : Option TreeNode :=
  match nodes with
  | .nil => none
  | .cons node rest =>
    if node.id = nodeId then some node
    else match node with
         | .folder _ _ _ children =>
             match findNodeInTree children nodeId with
             | some found => some found
             | none => findNodeInTree rest nodeId
         | .file _ => findNodeInTree rest nodeId

/-- Insertion into a JavaScript `Set`, walking the list left to right and
keeping an element only on its first occurrence (`seen` is the set of
elements already inserted). -/
def jsSetDedupGo (seen : List String) : List String → List String
  | [] => []
  | x :: xs => if seen.contains x then jsSetDedupGo seen xs else x :: jsSetDedupGo (x :: seen) xs

/-- The transcription of JavaScript's `Array.from(new Set(l))`: remove
duplicates keeping the first occurrence of each element, in order (JS `Set`
iteration follows insertion order). -/
def jsSetDedup (l : List String) : List String := jsSetDedupGo [] l

/-- The `updateFn` closure of `handleAddTag`: on the file node with the given
id, append the tag to its analysis tags unless already present (creating the
default analysis shell when none exists); any other node is returned
unchanged. -/
def addTagFn (fileId newTag : String) (n : TreeNode) : TreeNode :=
  match n with
  | .file f =>
      if f.id = fileId then
        let analysis := f.analysis.getD ⟨"", "", [], "Unknown"⟩
        if analysis.tags.contains newTag then .file f
        else .file { f with analysis := some { analysis with tags := analysis.tags ++ [newTag] } }
      else .file f
  | n => n

/-- `handleAddTag`'s effect on the tree state: `updateNodeInTree` with the
tag-adding closure. -/
def handleAddTag (tree : TreeList) (fileId newTag : String) : TreeList :=
  updateNodeInTree tree fileId (addTagFn fileId newTag)

mutual
/-- The per-node transform inside `recursivelyUpdateTags` (the closure
defined in `propagateTagToSimilarImages`): a file node whose id is in the
matched set gets the tag appended and the tag list deduplicated via
`new Set`; a matched node without analysis gets the empty shell with just
the new tag; folders recurse into children. -/
def recursivelyUpdateTagsNode (updatedImageIds : List String) (newTag : String) :
    TreeNode → TreeNode
  | .file f =>
      if updatedImageIds.contains f.id then
        match f.analysis with
        | some a => .file { f with analysis := some { a with tags := jsSetDedup (a.tags ++ [newTag]) } }
        | none => .file { f with analysis := some ⟨"", "", [newTag], ""⟩ }
      else .file f
  | .folder i nm p children =>
      .folder i nm p (recursivelyUpdateTags updatedImageIds newTag children)

/-- `recursivelyUpdateTags` from `propagateTagToSimilarImages`: map the
matched-set tag update over the whole tree. -/
def recursivelyUpdateTags (updatedImageIds : List String) (newTag : String) :
    TreeList → TreeList
  | .nil => .nil
  | .cons node rest =>
      .cons (recursivelyUpdateTagsNode updatedImageIds newTag node)
        (recursivelyUpdateTags updatedImageIds newTag rest)
end

/-- A comparator capability: `compareImages(source, target)` from
`geminiService.ts`, seen from the propagation loop. `.ok b` is a comparison
that resolved to `b`; `.error ()` is a comparison whose promise rejected. -/
def Comparator : Type := FileNode → FileNode → Except Unit Bool

/-- The observable outcome of one `handlePropagateTag` run: the final tree
state, the reported `updatedCount`, the source node the scan actually passed
to `compareImages` (when the scan ran at all), the candidates compared in
order, and the matched candidates. -/
structure PropagationRun where
  finalTree : TreeList
  updatedCount : Nat
  scanSource : Option FileNode
  compared : List FileNode
  matched : List FileNode

/-- `propagateTagToSimilarImages(sourceFile, newTag)`, with the surrounding
state made explicit. `staleTree` is the `treeData` the function closes over
(from the render in which it was created), and `committedTree` is the tree
state at the time its final functional `setTreeData` update runs (i.e. after
`handleAddTag`'s update was applied). Candidate gathering and filtering read
`staleTree` exactly as the closure does; each candidate is compared against
`sourceFile` in order; a comparison that rejects is caught (`try/catch` in
the loop) and contributes no match; matches are batch-applied to
`committedTree`, and only when at least one match was found. -/
def propagateTagToSimilarImages (staleTree committedTree : TreeList)
    (sourceFile : FileNode) (newTag : String) (cmp : Comparator) : PropagationRun :=
  let allImages := findAllImageFiles staleTree
  let otherImages := allImages.filter (fun img =>
    img.id != sourceFile.id && !((img.analysis.map (fun a => a.tags.contains newTag)).getD false))
  if otherImages = [] then
    { finalTree := committedTree, updatedCount := 0, scanSource := some sourceFile,
      compared := [], matched := [] }
  else
    let matched := otherImages.filter (fun target =>
      match cmp sourceFile target with
      | .ok isMatch => isMatch
      | .error _ => false)
    let updatedImageIds := matched.map (fun f => f.id)
    let finalTree :=
      if matched = [] then committedTree
      else recursivelyUpdateTags updatedImageIds newTag committedTree
    { finalTree := finalTree, updatedCount := matched.length, scanSource := some sourceFile,
      compared := otherImages, matched := matched }

/-- `handlePropagateTag(fileId, tag)` as one sequential run over the tree
state `tree`. Following the source: the guard reads `findNodeInTree`; on
success `handleAddTag` commits its update (producing the tree the final
batch apply will see); the delayed callback then re-reads `findNodeInTree`
**on the `treeData` captured by the closure — the pre-update tree** — and
hands that node to the scan as `freshSourceFile`. -/
def handlePropagateTag (tree : TreeList) (fileId tag : String) (cmp : Comparator) :
    PropagationRun :=
  match findNodeInTree tree fileId with
  | some (.file sourceFile) =>
      if jsStartsWith sourceFile.mimeType "image/" then
        let committedTree := handleAddTag tree fileId tag
        match findNodeInTree tree fileId with
        | some (.file freshSourceFile) =>
            propagateTagToSimilarImages tree committedTree freshSourceFile tag cmp
        | _ =>
            { finalTree := committedTree, updatedCount := 0, scanSource := none,
              compared := [], matched := [] }
      else
        { finalTree := tree, updatedCount := 0, scanSource := none, compared := [], matched := [] }
  | _ =>
      { finalTree := tree, updatedCount := 0, scanSource := none, compared := [], matched := [] }

/-- The `updateAnalysis` closure of `handleSelectNode`: attach the analysis
result to the node with the selected id. (The source spreads the result onto
the matched node and casts to `FileNode`; the cast is honest only for file
nodes — the only kind the handler is ever invoked with — so folder nodes are
modelled as returned unchanged.) -/
def updateAnalysisFn (nodeId : String) (analysisResult : AnalysisResult) (n : TreeNode) :
    TreeNode :=
  match n with
  | .file f => if f.id = nodeId then .file { f with analysis := some analysisResult } else .file f
  | n => n

/-- The outcome of one `handleSelectNode` call: the tree state afterwards,
whether the external analyzer (`analyzeFile`) was invoked, and the error
surfaced to the UI (if any). -/
structure SelectOutcome where
  tree : TreeList
  analyzerInvoked : Bool
  surfacedError : Option String

/-- `handleSelectNode(node)` from the app component, with the external
analyzer passed explicitly: if the node already carries an analysis, return
at once without touching the tree or the analyzer (`if (node.analysis)
return`); otherwise invoke the analyzer, attach its result to the tree on
success, and on failure surface the error message while leaving the tree
untouched. -/
def handleSelectNode (tree : TreeList) (node : FileNode)
    (analyzer : Except String AnalysisResult) : SelectOutcome :=
  if node.analysis.isSome then
    { tree := tree, analyzerInvoked := false, surfacedError := none }
  else
    match analyzer with
    | .ok analysisResult =>
        { tree := updateNodeInTree tree node.id (updateAnalysisFn node.id analysisResult),
          analyzerInvoked := true, surfacedError := none }
    | .error e =>
        { tree := tree, analyzerInvoked := true, surfacedError := some e }

/-- The debounced persistence state of the save effect: at most one pending
timer (holding the tree captured by that effect run) and the list of
snapshots actually written to `localStorage`, in order. -/
structure SaveState where
  pending : Option TreeList
  writes : List TreeList

/-- One run of the save `useEffect` for a new tree value: the cleanup of the
superseded effect run has cleared its timer (`clearTimeout`), and a fresh
timer holding the current tree is scheduled (`setTimeout`). -/
def scheduleSave (s : SaveState) (tree : TreeList) : SaveState :=
  { s with pending := some tree }

/-- The debounce timer firing: the pending tree (if any) is serialized and
written to storage, and the timer becomes idle. -/
def fireSaveTimer (s : SaveState) : SaveState :=
  match s.pending with
  | some tree => { pending := none, writes := s.writes ++ [tree] }
  | none => s

/-! ## Auxiliary, specification-side definitions -/

/-- All node ids of a tree, in pre-order (parent before children). -/
def allIds : TreeList → List String
  | .nil => []
  | .cons (.file f) rest => f.id :: allIds rest
  | .cons (.folder i _ _ children) rest => i :: (allIds children ++ allIds rest)

/-- The ids of a single node's subtree (the node itself included). -/
def nodeIds (n : TreeNode) : List String := allIds (.cons n .nil)

/-- All file nodes of a tree, in pre-order. -/
def allFiles : TreeList → List FileNode
  | .nil => []
  | .cons (.file f) rest => f :: allFiles rest
  | .cons (.folder _ _ _ children) rest => allFiles children ++ allFiles rest

/-- The file node a given id resolves to, when `findNodeInTree` finds a file
node at that id. -/
def fileAt (nodes : TreeList) (nodeId : String) : Option FileNode :=
  match findNodeInTree nodes nodeId with
  | some (.file f) => some f
  | _ => none

/-- Whether a file node carries `tag` among its analysis tags. -/
def FileNode.hasTag (f : FileNode) (tag : String) : Bool :=
  (f.analysis.map (fun a => a.tags.contains tag)).getD false

/-- Whether the node a given id resolves to is a file carrying `tag`. -/
def hasTag (nodes : TreeList) (nodeId tag : String) : Bool :=
  match fileAt nodes nodeId with
  | some f => f.hasTag tag
  | none => false

/-- Every file node's analysis (when present) has duplicate-free tags. -/
def TreeTagsNodup (nodes : TreeList) : Prop :=
  ∀ f ∈ allFiles nodes, ∀ a, f.analysis = some a → a.tags.Nodup

/-- An induction principle for tree lists that provides the inductive
hypothesis both for a folder's children and for the tail of the list — the
recursion pattern every helper of the app component follows. -/
theorem treeListInduction (motive : TreeList → Prop)
    (hnil : motive .nil)
    (hfile : ∀ (f : FileNode) (rest : TreeList), motive rest → motive (.cons (.file f) rest))
    (hfolder : ∀ (i nm p : String) (children rest : TreeList),
      motive children → motive rest → motive (.cons (.folder i nm p children) rest)) :
    ∀ nodes, motive nodes
  | .nil => hnil
  | .cons (.file f) rest => hfile f rest (treeListInduction motive hnil hfile hfolder rest)
  | .cons (.folder i nm p children) rest =>
      hfolder i nm p children rest
        (treeListInduction motive hnil hfile hfolder children)
        (treeListInduction motive hnil hfile hfolder rest)

/-! ## Basic lemmas about the tree traversals -/

@[simp] theorem TreeNode.id_file (f : FileNode) : (TreeNode.file f).id = f.id := rfl

@[simp] theorem TreeNode.id_folder (i nm p : String) (c : TreeList) :
    (TreeNode.folder i nm p c).id = i := rfl

@[simp] theorem nodeIds_file (f : FileNode) : nodeIds (.file f) = [f.id] := rfl

@[simp] theorem nodeIds_folder (i nm p : String) (c : TreeList) :
    nodeIds (.folder i nm p c) = i :: allIds c := by
  simp [nodeIds, allIds]

theorem allIds_cons (n : TreeNode) (rest : TreeList) :
    allIds (.cons n rest) = nodeIds n ++ allIds rest := by
  cases n <;> simp [allIds]

theorem findNodeInTree_eq_id (nodes : TreeList) (i : String) (n : TreeNode)
    (h : findNodeInTree nodes i = some n) : n.id = i := by
  induction nodes using treeListInduction with
  | hnil => simp [findNodeInTree] at h
  | hfile f rest ih =>
      rw [findNodeInTree] at h
      by_cases hid : f.id = i
      · simp [hid] at h; subst h; simpa using hid
      · simp [hid] at h; exact ih h
  | hfolder i0 nm p children rest ihc ihr =>
      rw [findNodeInTree] at h
      by_cases hid : i0 = i
      · simp [hid] at h; subst h; simp [hid]
      · simp [hid] at h
        cases hc : findNodeInTree children i with
        | some found => rw [hc] at h; cases h; exact ihc hc
        | none => rw [hc] at h; exact ihr h

theorem findNodeInTree_eq_none_iff (nodes : TreeList) (i : String) :
    findNodeInTree nodes i = none ↔ i ∉ allIds nodes := by
  induction nodes using treeListInduction with
  | hnil => simp [findNodeInTree, allIds]
  | hfile f rest ih =>
      rw [findNodeInTree]
      by_cases hid : f.id = i
      · simp [hid, allIds]
      · have hid' : i ≠ f.id := fun he => hid he.symm
        simp [hid, hid', allIds, ih]
  | hfolder i0 nm p children rest ihc ihr =>
      rw [findNodeInTree]
      by_cases hid : i0 = i
      · simp [hid, allIds]
      · have hid' : i ≠ i0 := fun he => hid he.symm
        simp only [TreeNode.id_folder, hid, if_false, allIds, List.mem_cons, List.mem_append]
        cases hc : findNodeInTree children i with
        | some found =>
            have : i ∈ allIds children := by
              by_contra hmem
              rw [← ihc] at hmem
              rw [hc] at hmem; cases hmem
            simp [this]
        | none =>
            have hcmem : i ∉ allIds children := ihc.mp hc
            simp [ihr, hcmem, hid']

theorem updateNodeInTree_of_find_none (nodes : TreeList) (i : String)
    (updateFn : TreeNode → TreeNode) (h : findNodeInTree nodes i = none) :
    updateNodeInTree nodes i updateFn = nodes := by
  induction nodes using treeListInduction with
  | hnil => rfl
  | hfile f rest ih =>
      rw [findNodeInTree] at h
      by_cases hid : f.id = i
      · simp [hid] at h
      · simp [hid] at h
        rw [updateNodeInTree]
        simp [hid, ih h]
  | hfolder i0 nm p children rest ihc ihr =>
      rw [findNodeInTree] at h
      by_cases hid : i0 = i
      · simp [hid] at h
      · simp only [TreeNode.id_folder, hid, if_false] at h
        cases hc : findNodeInTree children i with
        | some found => rw [hc] at h; cases h
        | none =>
            rw [hc] at h
            rw [updateNodeInTree]
            simp [hid, ihc hc, ihr h]

theorem removeNodeFromTree_of_find_none (nodes : TreeList) (i : String)
    (h : findNodeInTree nodes i = none) :
    removeNodeFromTree nodes i = nodes := by
  induction nodes using treeListInduction with
  | hnil => rfl
  | hfile f rest ih =>
      rw [findNodeInTree] at h
      by_cases hid : f.id = i
      · simp [hid] at h
      · simp [hid] at h
        rw [removeNodeFromTree]
        simp [hid, ih h]
  | hfolder i0 nm p children rest ihc ihr =>
      rw [findNodeInTree] at h
      by_cases hid : i0 = i
      · simp [hid] at h
      · simp only [TreeNode.id_folder, hid, if_false] at h
        cases hc : findNodeInTree children i with
        | some found => rw [hc] at h; cases h
        | none =>
            rw [hc] at h
            rw [removeNodeFromTree]
            simp [hid, ihc hc, ihr h]

theorem findNodeInTree_removeNodeFromTree_self (nodes : TreeList) (i : String) :
    findNodeInTree (removeNodeFromTree nodes i) i = none := by
  induction nodes using treeListInduction with
  | hnil => rfl
  | hfile f rest ih =>
      rw [removeNodeFromTree]
      by_cases hid : f.id = i
      · simpa [hid] using ih
      · simp only [TreeNode.id_file, hid, if_false]
        rw [findNodeInTree]
        simpa [hid] using ih
  | hfolder i0 nm p children rest ihc ihr =>
      rw [removeNodeFromTree]
      by_cases hid : i0 = i
      · simpa [hid] using ihr
      · simp only [TreeNode.id_folder, hid, if_false]
        rw [findNodeInTree]
        simp only [TreeNode.id_folder, hid, if_false]
        rw [ihc]
        exact ihr

theorem allIds_removeNodeFromTree_sublist (nodes : TreeList) (i : String) :
    (allIds (removeNodeFromTree nodes i)).Sublist (allIds nodes) := by
  induction nodes using treeListInduction with
  | hnil => simp [removeNodeFromTree]
  | hfile f rest ih =>
      rw [removeNodeFromTree]
      by_cases hid : f.id = i
      · simp only [TreeNode.id_file, hid, if_true]
        exact ih.trans (by simp [allIds])
      · simp only [TreeNode.id_file, hid, if_false, allIds]
        exact ih.cons₂ f.id
  | hfolder i0 nm p children rest ihc ihr =>
      rw [removeNodeFromTree]
      by_cases hid : i0 = i
      · simp only [TreeNode.id_folder, hid, if_true]
        refine ihr.trans ?_
        simp only [allIds]
        exact (List.sublist_append_right _ _).trans (List.sublist_cons_self _ _)
      · simp only [TreeNode.id_folder, hid, if_false, allIds]
        exact (ihc.append ihr).cons₂ i0

theorem nodeIds_subset_of_find (nodes : TreeList) (j : String) (m : TreeNode)
    (h : findNodeInTree nodes j = some m) :
    ∀ x ∈ nodeIds m, x ∈ allIds nodes := by
  induction nodes using treeListInduction with
  | hnil => simp [findNodeInTree] at h
  | hfile f rest ih =>
      rw [findNodeInTree] at h
      by_cases hid : f.id = j
      · simp only [TreeNode.id_file, hid, if_true] at h
        cases h
        intro x hx
        simp only [nodeIds_file, List.mem_singleton] at hx
        simp [allIds, hx]
      · simp only [TreeNode.id_file, hid, if_false] at h
        intro x hx
        simp [allIds, ih h x hx]
  | hfolder i0 nm p children rest ihc ihr =>
      rw [findNodeInTree] at h
      by_cases hid : i0 = j
      · simp only [TreeNode.id_folder, hid, if_true] at h
        cases h
        intro x hx
        simp only [nodeIds_folder, List.mem_cons] at hx
        simp only [allIds, List.mem_cons, List.mem_append]
        rcases hx with hx | hx
        · exact Or.inl (hx.trans hid.symm)
        · exact Or.inr (Or.inl hx)
      · simp only [TreeNode.id_folder, hid, if_false] at h
        cases hc : findNodeInTree children j with
        | some found =>
            rw [hc] at h; cases h
            intro x hx
            simp only [allIds, List.mem_cons, List.mem_append]
            exact Or.inr (Or.inl (ihc hc x hx))
        | none =>
            rw [hc] at h
            intro x hx
            simp only [allIds, List.mem_cons, List.mem_append]
            exact Or.inr (Or.inr (ihr h x hx))


theorem mem_allIds_removeNodeFromTree (nodes : TreeList) (j : String) (m : TreeNode)
    (hnd : (allIds nodes).Nodup) (h : findNodeInTree nodes j = some m) :
    ∀ x, x ∈ allIds (removeNodeFromTree nodes j) ↔ (x ∈ allIds nodes ∧ x ∉ nodeIds m) := by
  induction nodes using treeListInduction with
  | hnil => simp [findNodeInTree] at h
  | hfile f rest ih =>
      rw [findNodeInTree] at h
      rw [removeNodeFromTree]
      simp only [allIds, List.nodup_cons] at hnd
      by_cases hid : f.id = j
      · simp only [TreeNode.id_file, hid, if_true] at h ⊢
        cases h
        have hnof : findNodeInTree rest j = none := by
          rw [findNodeInTree_eq_none_iff]
          rw [← hid]; exact hnd.1
        rw [removeNodeFromTree_of_find_none rest j hnof]
        intro x
        simp only [allIds, nodeIds_file, List.mem_cons, List.mem_singleton,
          List.not_mem_nil, or_false]
        constructor
        · intro hx
          refine ⟨Or.inr hx, ?_⟩
          intro he; subst he; exact hnd.1 hx
        · rintro ⟨hx | hx, hne⟩
          · exact absurd hx hne
          · exact hx
      · simp only [TreeNode.id_file, hid, if_false] at h ⊢
        intro x
        simp only [allIds, List.mem_cons, ih hnd.2 h x]
        have hfm : f.id ∉ nodeIds m := by
          intro hmem
          exact hnd.1 (nodeIds_subset_of_find rest j m h f.id hmem)
        constructor
        · rintro (hx | ⟨hx, hn⟩)
          · subst hx; exact ⟨Or.inl rfl, hfm⟩
          · exact ⟨Or.inr hx, hn⟩
        · rintro ⟨hx | hx, hn⟩
          · exact Or.inl hx
          · exact Or.inr ⟨hx, hn⟩
  | hfolder i0 nm p children rest ihc ihr =>
      rw [findNodeInTree] at h
      rw [removeNodeFromTree]
      simp only [allIds] at hnd
      have hni : i0 ∉ allIds children ++ allIds rest := (List.nodup_cons.mp hnd).1
      have htail : (allIds children ++ allIds rest).Nodup := (List.nodup_cons.mp hnd).2
      have hnic : i0 ∉ allIds children := fun hm => hni (List.mem_append.mpr (Or.inl hm))
      have hnir : i0 ∉ allIds rest := fun hm => hni (List.mem_append.mpr (Or.inr hm))
      have hndc : (allIds children).Nodup := htail.of_append_left
      have hndr : (allIds rest).Nodup := htail.of_append_right
      have hdisj : (allIds children).Disjoint (allIds rest) :=
        List.disjoint_of_nodup_append htail
      by_cases hid : i0 = j
      · simp only [TreeNode.id_folder, hid, if_true] at h ⊢
        cases h
        have hnof : findNodeInTree rest j = none := by
          rw [findNodeInTree_eq_none_iff]
          rw [← hid]; exact hnir
        rw [removeNodeFromTree_of_find_none rest j hnof]
        intro x
        simp only [allIds, nodeIds_folder, List.mem_cons, List.mem_append]
        constructor
        · intro hx
          refine ⟨Or.inr (Or.inr hx), ?_⟩
          rintro (he | hcm)
          · subst he; rw [← hid] at hx; exact hnir hx
          · exact hdisj hcm hx
        · rintro ⟨hx | hx | hx, hne⟩
          · exact absurd (Or.inl hx) hne
          · exact absurd (Or.inr hx) hne
          · exact hx
      · simp only [TreeNode.id_folder, hid, if_false] at h ⊢
        cases hc : findNodeInTree children j with
        | some found =>
            rw [hc] at h; cases h
            have hjc : j ∈ allIds children := by
              by_contra hnc
              rw [← findNodeInTree_eq_none_iff] at hnc
              rw [hnc] at hc; cases hc
            have hjr : findNodeInTree rest j = none := by
              rw [findNodeInTree_eq_none_iff]
              intro hmem
              exact hdisj hjc hmem
            rw [removeNodeFromTree_of_find_none rest j hjr]
            intro x
            simp only [allIds, List.mem_cons, List.mem_append, ihc hndc hc x]
            have him : i0 ∉ nodeIds m := by
              intro hmem
              exact hnic (nodeIds_subset_of_find children j m hc i0 hmem)
            have hrm : ∀ y ∈ allIds rest, y ∉ nodeIds m := by
              intro y hy hmem
              exact hdisj (nodeIds_subset_of_find children j m hc y hmem) hy
            constructor
            · rintro (hx | ⟨hx, hn⟩ | hx)
              · subst hx; exact ⟨Or.inl rfl, him⟩
              · exact ⟨Or.inr (Or.inl hx), hn⟩
              · exact ⟨Or.inr (Or.inr hx), hrm x hx⟩
            · rintro ⟨hx | hx | hx, hn⟩
              · exact Or.inl hx
              · exact Or.inr (Or.inl ⟨hx, hn⟩)
              · exact Or.inr (Or.inr hx)
        | none =>
            rw [hc] at h
            rw [removeNodeFromTree_of_find_none children j hc]
            intro x
            simp only [allIds, List.mem_cons, List.mem_append, ihr hndr h x]
            have him : i0 ∉ nodeIds m := by
              intro hmem
              exact hnir (nodeIds_subset_of_find rest j m h i0 hmem)
            have hcm : ∀ y ∈ allIds children, y ∉ nodeIds m := by
              intro y hy hmem
              exact hdisj hy (nodeIds_subset_of_find rest j m h y hmem)
            constructor
            · rintro (hx | hx | ⟨hx, hn⟩)
              · subst hx; exact ⟨Or.inl rfl, him⟩
              · exact ⟨Or.inr (Or.inl hx), hcm x hx⟩
              · exact ⟨Or.inr (Or.inr hx), hn⟩
            · rintro ⟨hx | hx | hx, hn⟩
              · exact Or.inl hx
              · exact Or.inr (Or.inl hx)
              · exact Or.inr (Or.inr ⟨hx, hn⟩)

/-- The shape shared by the node transforms the app passes to
`updateNodeInTree` (`addTagFn`, `updateAnalysisFn`): file nodes map to file
nodes with the same id, and folder nodes are returned unchanged. -/
def FileTransform (g : TreeNode → TreeNode) : Prop :=
  (∀ fl : FileNode, ∃ fl2 : FileNode, fl2.id = fl.id ∧ g (.file fl) = .file fl2) ∧
  (∀ i nm p c, g (.folder i nm p c) = .folder i nm p c)

theorem FileTransform.id_eq {g : TreeNode → TreeNode} (hg : FileTransform g) (n : TreeNode) :
    (g n).id = n.id := by
  cases n with
  | file fl =>
      obtain ⟨fl2, hid, heq⟩ := hg.1 fl
      rw [heq]; simpa using hid
  | folder i nm p c => rw [hg.2]

theorem addTagFn_fileTransform (fileId newTag : String) :
    FileTransform (addTagFn fileId newTag) := by
  constructor
  · intro fl
    by_cases hid : fl.id = fileId
    · by_cases hc : ((fl.analysis.getD ⟨"", "", [], "Unknown"⟩).tags.contains newTag) = true
      · refine ⟨fl, rfl, ?_⟩
        rw [addTagFn]
        simp only [hid, if_true]
        exact if_pos hc
      · refine ⟨{ fl with analysis := some { fl.analysis.getD ⟨"", "", [], "Unknown"⟩ with
          tags := (fl.analysis.getD ⟨"", "", [], "Unknown"⟩).tags ++ [newTag] } }, rfl, ?_⟩
        rw [addTagFn]
        simp only [hid, if_true]
        exact if_neg hc
    · exact ⟨fl, rfl, by simp [addTagFn, hid]⟩
  · intro i nm p c; rfl

theorem updateAnalysisFn_fileTransform (nodeId : String) (r : AnalysisResult) :
    FileTransform (updateAnalysisFn nodeId r) := by
  constructor
  · intro fl
    by_cases hid : fl.id = nodeId
    · exact ⟨{ fl with analysis := some r }, rfl, by simp [updateAnalysisFn, hid]⟩
    · exact ⟨fl, rfl, by simp [updateAnalysisFn, hid]⟩
  · intro i nm p c; rfl

theorem allIds_updateNodeInTree (nodes : TreeList) (j : String) (g : TreeNode → TreeNode)
    (hg : FileTransform g) :
    allIds (updateNodeInTree nodes j g) = allIds nodes := by
  induction nodes using treeListInduction with
  | hnil => rfl
  | hfile f rest ih =>
      rw [updateNodeInTree]
      by_cases hid : f.id = j
      · simp only [TreeNode.id_file, hid, if_true]
        obtain ⟨fl2, hfid, heq⟩ := hg.1 f
        rw [heq, allIds_cons, allIds_cons, ih]
        simp [hfid, hid]
      · simp only [TreeNode.id_file, hid, if_false]
        rw [allIds_cons, allIds_cons, ih]
  | hfolder i0 nm p children rest ihc ihr =>
      rw [updateNodeInTree]
      by_cases hid : i0 = j
      · simp only [TreeNode.id_folder, hid, if_true]
        rw [hg.2]
        rw [allIds_cons, allIds_cons, ihr]
      · simp only [TreeNode.id_folder, hid, if_false]
        rw [allIds_cons, allIds_cons, ihr]
        simp [allIds, ihc]

theorem findNodeInTree_updateNodeInTree_self (nodes : TreeList) (j : String)
    (g : TreeNode → TreeNode) (hg : FileTransform g) :
    findNodeInTree (updateNodeInTree nodes j g) j = (findNodeInTree nodes j).map g := by
  induction nodes using treeListInduction with
  | hnil => rfl
  | hfile f rest ih =>
      rw [updateNodeInTree]
      by_cases hid : f.id = j
      · simp only [TreeNode.id_file, hid, if_true]
        obtain ⟨fl2, hfid, heq⟩ := hg.1 f
        rw [heq]
        rw [findNodeInTree, findNodeInTree]
        simp [hfid, hid, heq]
      · simp only [TreeNode.id_file, hid, if_false]
        rw [findNodeInTree, findNodeInTree]
        simp [hid, ih]
  | hfolder i0 nm p children rest ihc ihr =>
      rw [updateNodeInTree]
      by_cases hid : i0 = j
      · simp only [TreeNode.id_folder, hid, if_true]
        rw [hg.2]
        rw [findNodeInTree, findNodeInTree]
        simp [hid, hg.2]
      · simp only [TreeNode.id_folder, hid, if_false]
        rw [findNodeInTree, findNodeInTree]
        simp only [TreeNode.id_folder, hid, if_false]
        rw [ihc]
        cases hc : findNodeInTree children j with
        | some found => simp
        | none => simp [ihr]

theorem mem_jsSetDedupGo (x : String) (l : List String) :
    ∀ seen, x ∈ jsSetDedupGo seen l ↔ (x ∈ l ∧ x ∉ seen) := by
  induction l with
  | nil => intro seen; simp [jsSetDedupGo]
  | cons y ys ih =>
      intro seen
      rw [jsSetDedupGo]
      by_cases hy : seen.contains y = true
      · rw [if_pos hy]
        rw [ih seen]
        have hz : y ∈ seen := by
          simpa using hy
        constructor
        · rintro ⟨hx, hns⟩
          exact ⟨List.mem_cons_of_mem y hx, hns⟩
        · rintro ⟨hx, hns⟩
          rcases List.mem_cons.mp hx with hx | hx
          · subst hx; exact absurd hz hns
          · exact ⟨hx, hns⟩
      · rw [if_neg hy]
        have hz : y ∉ seen := by
          simpa using hy
        simp only [List.mem_cons, ih (y :: seen), List.mem_cons, not_or]
        constructor
        · rintro (hx | ⟨hx, hxy, hns⟩)
          · subst hx
            exact ⟨Or.inl rfl, hz⟩
          · exact ⟨Or.inr hx, hns⟩
        · rintro ⟨hx | hx, hns⟩
          · exact Or.inl hx
          · by_cases hxy : x = y
            · exact Or.inl hxy
            · exact Or.inr ⟨hx, hxy, hns⟩

theorem mem_jsSetDedup (x : String) (l : List String) : x ∈ jsSetDedup l ↔ x ∈ l := by
  rw [jsSetDedup, mem_jsSetDedupGo]
  simp

theorem jsSetDedupGo_nodup (l : List String) : ∀ seen, (jsSetDedupGo seen l).Nodup := by
  induction l with
  | nil => intro seen; simp [jsSetDedupGo]
  | cons y ys ih =>
      intro seen
      rw [jsSetDedupGo]
      by_cases hy : seen.contains y = true
      · rw [if_pos hy]; exact ih seen
      · rw [if_neg hy]
        refine List.nodup_cons.mpr ⟨?_, ih (y :: seen)⟩
        rw [mem_jsSetDedupGo]
        rintro ⟨-, hns⟩
        exact hns (List.mem_cons_self y seen)

theorem jsSetDedup_nodup (l : List String) : (jsSetDedup l).Nodup :=
  jsSetDedupGo_nodup l []

/-- The file payload of a tree node, when it is a file node. -/
def nodeFilePart : TreeNode → Option FileNode
  | .file f => some f
  | _ => none

theorem fileAt_eq_bind (nodes : TreeList) (i : String) :
    fileAt nodes i = (findNodeInTree nodes i).bind nodeFilePart := by
  rw [fileAt]
  cases h : findNodeInTree nodes i with
  | none => rfl
  | some n => cases n <;> rfl

theorem fileAt_updateNodeInTree_ne (nodes : TreeList) (i j : String)
    (g : TreeNode → TreeNode) (hg : FileTransform g) (hne : i ≠ j) :
    fileAt (updateNodeInTree nodes j g) i = fileAt nodes i := by
  rw [fileAt_eq_bind, fileAt_eq_bind]
  induction nodes using treeListInduction with
  | hnil => rfl
  | hfile f rest ih =>
      rw [updateNodeInTree]
      by_cases hid : f.id = j
      · simp only [TreeNode.id_file, hid, if_true]
        obtain ⟨fl2, hfid, heq⟩ := hg.1 f
        rw [heq]
        rw [findNodeInTree, findNodeInTree]
        have h1 : fl2.id ≠ i := by rw [hfid, hid]; exact fun he => hne he.symm
        have h2 : f.id ≠ i := by rw [hid]; exact fun he => hne he.symm
        simp only [TreeNode.id_file, h1, h2, if_false]
        exact ih
      · simp only [TreeNode.id_file, hid, if_false]
        rw [findNodeInTree, findNodeInTree]
        by_cases hfi : f.id = i
        · simp [hfi]
        · simp only [TreeNode.id_file, hfi, if_false]
          exact ih
  | hfolder i0 nm p children rest ihc ihr =>
      rw [updateNodeInTree]
      by_cases hid : i0 = j
      · simp only [TreeNode.id_folder, hid, if_true]
        rw [hg.2]
        rw [findNodeInTree, findNodeInTree]
        have h1 : j ≠ i := fun he => hne he.symm
        simp only [TreeNode.id_folder, h1, if_false]
        cases hc : findNodeInTree children i with
        | some found => rfl
        | none => exact ihr
      · simp only [TreeNode.id_folder, hid, if_false]
        rw [findNodeInTree, findNodeInTree]
        by_cases hfi : i0 = i
        · simp [hfi, nodeFilePart]
        · simp only [TreeNode.id_folder, hfi, if_false]
          have hnone_iff : findNodeInTree (updateNodeInTree children j g) i = none ↔
              findNodeInTree children i = none := by
            rw [findNodeInTree_eq_none_iff, findNodeInTree_eq_none_iff,
              allIds_updateNodeInTree children j g hg]
          cases hc' : findNodeInTree (updateNodeInTree children j g) i with
          | some found' =>
              cases hc : findNodeInTree children i with
              | some found =>
                  have hIH := ihc
                  rw [hc', hc] at hIH
                  exact hIH
              | none =>
                  rw [← hnone_iff] at hc
                  rw [hc] at hc'; cases hc'
          | none =>
              cases hc : findNodeInTree children i with
              | some found =>
                  rw [hnone_iff] at hc'
                  rw [hc] at hc'; cases hc'
              | none => exact ihr

theorem recursivelyUpdateTagsNode_id (ids : List String) (tg : String) (n : TreeNode) :
    (recursivelyUpdateTagsNode ids tg n).id = n.id := by
  cases n with
  | file f =>
      rw [recursivelyUpdateTagsNode]
      by_cases hc : ids.contains f.id = true
      · rw [if_pos hc]
        cases f.analysis <;> rfl
      · rw [if_neg hc]
  | folder i nm p c => rfl

theorem findNodeInTree_recursivelyUpdateTags (ids : List String) (tg : String)
    (nodes : TreeList) (i : String) :
    findNodeInTree (recursivelyUpdateTags ids tg nodes) i =
      (findNodeInTree nodes i).map (recursivelyUpdateTagsNode ids tg) := by
  induction nodes using treeListInduction with
  | hnil => rfl
  | hfile f rest ih =>
      rw [recursivelyUpdateTags]
      have hnode : ∃ f2 : FileNode,
          recursivelyUpdateTagsNode ids tg (.file f) = .file f2 ∧ f2.id = f.id := by
        rw [recursivelyUpdateTagsNode]
        by_cases hc : ids.contains f.id = true
        · rw [if_pos hc]
          cases ha : f.analysis with
          | some a => exact ⟨_, rfl, rfl⟩
          | none => exact ⟨_, rfl, rfl⟩
        · rw [if_neg hc]; exact ⟨f, rfl, rfl⟩
      obtain ⟨f2, hnode, hf2id⟩ := hnode
      rw [hnode, findNodeInTree, findNodeInTree]
      by_cases hid : f.id = i
      · rw [if_pos (show (TreeNode.file f2).id = i by simpa [hf2id] using hid),
            if_pos (show (TreeNode.file f).id = i by simpa using hid)]
        simp [hnode]
      · rw [if_neg (show ¬ (TreeNode.file f2).id = i by simpa [hf2id] using hid),
            if_neg (show ¬ (TreeNode.file f).id = i by simpa using hid)]
        exact ih
  | hfolder i0 nm p children rest ihc ihr =>
      rw [recursivelyUpdateTags]
      have hfold : recursivelyUpdateTagsNode ids tg (.folder i0 nm p children) =
          .folder i0 nm p (recursivelyUpdateTags ids tg children) := by
        rw [recursivelyUpdateTagsNode]
      rw [hfold, findNodeInTree, findNodeInTree]
      by_cases hid : i0 = i
      · rw [if_pos (show (TreeNode.folder i0 nm p (recursivelyUpdateTags ids tg children)).id = i
            by simpa using hid),
            if_pos (show (TreeNode.folder i0 nm p children).id = i by simpa using hid)]
        simp [hfold]
      · rw [if_neg (show ¬ (TreeNode.folder i0 nm p (recursivelyUpdateTags ids tg children)).id = i
            by simpa using hid),
            if_neg (show ¬ (TreeNode.folder i0 nm p children).id = i by simpa using hid)]
        rw [ihc]
        cases hc : findNodeInTree children i with
        | some found => simp
        | none => simp [ihr]

theorem mem_allFiles_id (nodes : TreeList) (f : FileNode) (h : f ∈ allFiles nodes) :
    f.id ∈ allIds nodes := by
  induction nodes using treeListInduction with
  | hnil => simp [allFiles] at h
  | hfile f0 rest ih =>
      rw [allFiles] at h
      rcases List.mem_cons.mp h with h | h
      · subst h; simp [allIds]
      · simp [allIds, ih h]
  | hfolder i0 nm p children rest ihc ihr =>
      rw [allFiles] at h
      rcases List.mem_append.mp h with h | h
      · simp [allIds, ihc h]
      · simp [allIds, ihr h]

theorem mem_findAllImageFiles (nodes : TreeList) (f : FileNode)
    (h : f ∈ findAllImageFiles nodes) :
    f ∈ allFiles nodes ∧ jsStartsWith f.mimeType "image/" = true := by
  induction nodes using treeListInduction with
  | hnil => simp [findAllImageFiles] at h
  | hfile f0 rest ih =>
      rw [findAllImageFiles] at h
      rw [allFiles]
      by_cases him : jsStartsWith f0.mimeType "image/" = true
      · rw [if_pos him] at h
        rcases List.mem_cons.mp h with h | h
        · subst h; exact ⟨List.mem_cons_self _ _, him⟩
        · obtain ⟨h1, h2⟩ := ih h
          exact ⟨List.mem_cons_of_mem _ h1, h2⟩
      · rw [if_neg him] at h
        obtain ⟨h1, h2⟩ := ih h
        exact ⟨List.mem_cons_of_mem _ h1, h2⟩
  | hfolder i0 nm p children rest ihc ihr =>
      rw [findAllImageFiles] at h
      rw [allFiles]
      rcases List.mem_append.mp h with h | h
      · obtain ⟨h1, h2⟩ := ihc h
        exact ⟨List.mem_append.mpr (Or.inl h1), h2⟩
      · obtain ⟨h1, h2⟩ := ihr h
        exact ⟨List.mem_append.mpr (Or.inr h1), h2⟩

theorem fileAt_of_mem_allFiles (nodes : TreeList) (f : FileNode)
    (hnd : (allIds nodes).Nodup) (h : f ∈ allFiles nodes) :
    fileAt nodes f.id = some f := by
  induction nodes using treeListInduction with
  | hnil => simp [allFiles] at h
  | hfile f0 rest ih =>
      rw [allFiles] at h
      simp only [allIds, List.nodup_cons] at hnd
      rw [fileAt_eq_bind, findNodeInTree]
      rcases List.mem_cons.mp h with h | h
      · subst h
        simp [nodeFilePart]
      · have hne : f0.id ≠ f.id := by
          intro he
          rw [he] at hnd
          exact hnd.1 (mem_allFiles_id rest f h)
        simp only [TreeNode.id_file, hne, if_false]
        rw [← fileAt_eq_bind]
        exact ih hnd.2 h
  | hfolder i0 nm p children rest ihc ihr =>
      rw [allFiles] at h
      simp only [allIds] at hnd
      have hni : i0 ∉ allIds children ++ allIds rest := (List.nodup_cons.mp hnd).1
      have htail : (allIds children ++ allIds rest).Nodup := (List.nodup_cons.mp hnd).2
      have hndc : (allIds children).Nodup := htail.of_append_left
      have hndr : (allIds rest).Nodup := htail.of_append_right
      have hdisj : (allIds children).Disjoint (allIds rest) :=
        List.disjoint_of_nodup_append htail
      rw [fileAt_eq_bind, findNodeInTree]
      rcases List.mem_append.mp h with h | h
      · have hne : i0 ≠ f.id := by
          intro he
          exact hni (List.mem_append.mpr (Or.inl (he ▸ mem_allFiles_id children f h)))
        simp only [TreeNode.id_folder, hne, if_false]
        have hfound := ihc hndc h
        rw [fileAt_eq_bind] at hfound
        cases hc : findNodeInTree children f.id with
        | some found =>
            rw [hc] at hfound
            exact hfound
        | none => rw [hc] at hfound; cases hfound
      · have hne : i0 ≠ f.id := by
          intro he
          exact hni (List.mem_append.mpr (Or.inr (he ▸ mem_allFiles_id rest f h)))
        simp only [TreeNode.id_folder, hne, if_false]
        have hcnone : findNodeInTree children f.id = none := by
          rw [findNodeInTree_eq_none_iff]
          intro hmem
          exact hdisj hmem (mem_allFiles_id rest f h)
        rw [hcnone]
        rw [← fileAt_eq_bind]
        exact ihr hndr h

theorem mem_allFiles_updateNodeInTree (nodes : TreeList) (j : String)
    (g : TreeNode → TreeNode) (hg : FileTransform g) :
    ∀ f2 ∈ allFiles (updateNodeInTree nodes j g),
      f2 ∈ allFiles nodes ∨ ∃ f ∈ allFiles nodes, g (.file f) = .file f2 := by
  induction nodes using treeListInduction with
  | hnil => intro f2 h; rw [updateNodeInTree] at h; simp [allFiles] at h
  | hfile f rest ih =>
      intro f2 h
      rw [updateNodeInTree] at h
      by_cases hid : f.id = j
      · rw [if_pos (show (TreeNode.file f).id = j by simpa using hid)] at h
        obtain ⟨fl2, _, heq⟩ := hg.1 f
        rw [heq, allFiles] at h
        rcases List.mem_cons.mp h with h | h
        · subst h
          exact Or.inr ⟨f, by simp [allFiles], heq⟩
        · rcases ih f2 h with h | ⟨f0, hf0, hgf0⟩
          · exact Or.inl (by rw [allFiles]; exact List.mem_cons_of_mem _ h)
          · exact Or.inr ⟨f0, by rw [allFiles]; exact List.mem_cons_of_mem _ hf0, hgf0⟩
      · rw [if_neg (show ¬ (TreeNode.file f).id = j by simpa using hid)] at h
        rw [allFiles] at h
        rcases List.mem_cons.mp h with h | h
        · subst h
          exact Or.inl (by rw [allFiles]; exact List.mem_cons_self _ _)
        · rcases ih f2 h with h | ⟨f0, hf0, hgf0⟩
          · exact Or.inl (by rw [allFiles]; exact List.mem_cons_of_mem _ h)
          · exact Or.inr ⟨f0, by rw [allFiles]; exact List.mem_cons_of_mem _ hf0, hgf0⟩
  | hfolder i0 nm p children rest ihc ihr =>
      intro f2 h
      rw [updateNodeInTree] at h
      by_cases hid : i0 = j
      · rw [if_pos (show (TreeNode.folder i0 nm p children).id = j by simpa using hid)] at h
        rw [hg.2, allFiles] at h
        rcases List.mem_append.mp h with h | h
        · exact Or.inl (by rw [allFiles]; exact List.mem_append.mpr (Or.inl h))
        · rcases ihr f2 h with h | ⟨f0, hf0, hgf0⟩
          · exact Or.inl (by rw [allFiles]; exact List.mem_append.mpr (Or.inr h))
          · exact Or.inr ⟨f0, by rw [allFiles]; exact List.mem_append.mpr (Or.inr hf0), hgf0⟩
      · rw [if_neg (show ¬ (TreeNode.folder i0 nm p children).id = j by simpa using hid)] at h
        rw [allFiles] at h
        rcases List.mem_append.mp h with h | h
        · rcases ihc f2 h with h | ⟨f0, hf0, hgf0⟩
          · exact Or.inl (by rw [allFiles]; exact List.mem_append.mpr (Or.inl h))
          · exact Or.inr ⟨f0, by rw [allFiles]; exact List.mem_append.mpr (Or.inl hf0), hgf0⟩
        · rcases ihr f2 h with h | ⟨f0, hf0, hgf0⟩
          · exact Or.inl (by rw [allFiles]; exact List.mem_append.mpr (Or.inr h))
          · exact Or.inr ⟨f0, by rw [allFiles]; exact List.mem_append.mpr (Or.inr hf0), hgf0⟩

theorem mem_allFiles_recursivelyUpdateTags (ids : List String) (tg : String) (nodes : TreeList) :
    ∀ f2 ∈ allFiles (recursivelyUpdateTags ids tg nodes),
      ∃ f ∈ allFiles nodes, recursivelyUpdateTagsNode ids tg (.file f) = .file f2 := by
  induction nodes using treeListInduction with
  | hnil => intro f2 h; rw [recursivelyUpdateTags] at h; simp [allFiles] at h
  | hfile f rest ih =>
      intro f2 h
      rw [recursivelyUpdateTags] at h
      have hnode : ∃ fl2 : FileNode,
          recursivelyUpdateTagsNode ids tg (.file f) = .file fl2 := by
        rw [recursivelyUpdateTagsNode]
        by_cases hc : ids.contains f.id = true
        · rw [if_pos hc]
          cases ha : f.analysis with
          | some a => exact ⟨_, rfl⟩
          | none => exact ⟨_, rfl⟩
        · rw [if_neg hc]; exact ⟨f, rfl⟩
      obtain ⟨fl2, hnode⟩ := hnode
      rw [hnode, allFiles] at h
      rcases List.mem_cons.mp h with h | h
      · subst h
        exact ⟨f, by rw [allFiles]; exact List.mem_cons_self _ _, hnode⟩
      · obtain ⟨f0, hf0, hgf0⟩ := ih f2 h
        exact ⟨f0, by rw [allFiles]; exact List.mem_cons_of_mem _ hf0, hgf0⟩
  | hfolder i0 nm p children rest ihc ihr =>
      intro f2 h
      rw [recursivelyUpdateTags] at h
      rw [show recursivelyUpdateTagsNode ids tg (.folder i0 nm p children) =
          .folder i0 nm p (recursivelyUpdateTags ids tg children) from by
        rw [recursivelyUpdateTagsNode]] at h
      rw [allFiles] at h
      rcases List.mem_append.mp h with h | h
      · obtain ⟨f0, hf0, hgf0⟩ := ihc f2 h
        exact ⟨f0, by rw [allFiles]; exact List.mem_append.mpr (Or.inl hf0), hgf0⟩
      · obtain ⟨f0, hf0, hgf0⟩ := ihr f2 h
        exact ⟨f0, by rw [allFiles]; exact List.mem_append.mpr (Or.inr hf0), hgf0⟩

theorem addTagFn_result (fileId newTag : String) (f : FileNode) (hid : f.id = fileId) :
    ∃ f2 : FileNode, addTagFn fileId newTag (.file f) = .file f2 ∧ f2.id = fileId ∧
      f2.hasTag newTag = true := by
  rw [addTagFn]
  simp only [hid, if_true]
  by_cases hc : ((f.analysis.getD ⟨"", "", [], "Unknown"⟩).tags.contains newTag) = true
  · refine ⟨f, if_pos hc, hid, ?_⟩
    cases ha : f.analysis with
    | some a =>
        rw [ha] at hc
        simp only [Option.getD_some] at hc
        rw [FileNode.hasTag, ha]
        simpa using hc
    | none =>
        rw [ha] at hc
        simp at hc
  · refine ⟨_, if_neg hc, rfl, ?_⟩
    rw [FileNode.hasTag]
    simp

/-! ## Witness fixtures: a concrete workspace mirroring the seed data plus images -/

/-- A concrete image file node (no analysis yet). -/
def imgA : FileNode := ⟨"a", "cat1.png", "aaa", "image/png", "/Images/cat1.png", none⟩

/-- A second concrete image file node (no analysis yet). -/
def imgB : FileNode := ⟨"b", "cat2.png", "bbb", "image/png", "/Images/cat2.png", none⟩

/-- A concrete text document node. -/
def docR : FileNode := ⟨"2", "report.txt", "Project Alpha report.", "text/plain",
  "/Documents/report.txt", none⟩

/-- A concrete workspace: `Documents` with a text file, `Images` with two
image files — the shape of the app's seed data after two image uploads. -/
def sampleTree : TreeList :=
  .cons (.folder "1" "Documents" "/Documents" (.cons (.file docR) .nil))
    (.cons (.folder "3" "Images" "/Images" (.cons (.file imgA) (.cons (.file imgB) .nil))) .nil)

/-- A comparator that matches exactly the image with id `b` and never fails. -/
def cmpMatchB : Comparator := fun _ t => .ok (t.id == "b")

/-! ## C6 — update with an absent id is a no-op -/

/-- C6: for every tree `T`, id `n` not present in `T` (i.e. `find` returns
absent), and transform `f`, `update(T, n, f)` returns a tree structurally
equal to `T`: absence is a no-op identity, not an error. -/
theorem update_absent_is_noop (T : TreeList) (n : String) (f : TreeNode → TreeNode)
    (h : findNodeInTree T n = none) : updateNodeInTree T n f = T :=
  updateNodeInTree_of_find_none T n f h

/-- Witness for C6 at a concrete tree, absent id and concrete transform. -/
theorem update_absent_is_noop_witness :
    findNodeInTree sampleTree "zzz" = none ∧
    updateNodeInTree sampleTree "zzz" (addTagFn "zzz" "cat") = sampleTree :=
  ⟨rfl, update_absent_is_noop sampleTree "zzz" (addTagFn "zzz" "cat") rfl⟩

/-! ## C5 — remove: removal, subtree removal, order preservation, absent no-op -/

/-- C5: for every tree `T` with unique ids and id `n` present in `T` (found
node `m`): after `remove(T, n)` the id `n` is absent; the remaining pre-order
id sequence is a subsequence of the original (all remaining nodes keep their
relative order); an id remains exactly when it was present and not inside the
removed node's subtree (so removing a folder removes its entire subtree);
and remove with an absent id is a no-op. -/
theorem remove_correct (T : TreeList) (n : String) (m : TreeNode)
    (hnd : (allIds T).Nodup) (hfind : findNodeInTree T n = some m) :
    findNodeInTree (removeNodeFromTree T n) n = none ∧
    (allIds (removeNodeFromTree T n)).Sublist (allIds T) ∧
    (∀ x, x ∈ allIds (removeNodeFromTree T n) ↔ (x ∈ allIds T ∧ x ∉ nodeIds m)) ∧
    (∀ j, findNodeInTree T j = none → removeNodeFromTree T j = T) :=
  ⟨findNodeInTree_removeNodeFromTree_self T n,
   allIds_removeNodeFromTree_sublist T n,
   mem_allIds_removeNodeFromTree T n m hnd hfind,
   fun j hj => removeNodeFromTree_of_find_none T j hj⟩

/-- Witness for C5: removing the folder `Images` (id `3`, holding two files)
from the concrete workspace removes it and its files, keeps the sibling
order, and an absent id is a no-op. -/
theorem remove_correct_witness :
    findNodeInTree (removeNodeFromTree sampleTree "3") "3" = none ∧
    (allIds (removeNodeFromTree sampleTree "3")).Sublist (allIds sampleTree) ∧
    ("b" ∈ allIds (removeNodeFromTree sampleTree "3") ↔
      ("b" ∈ allIds sampleTree ∧
       "b" ∉ nodeIds (.folder "3" "Images" "/Images" (.cons (.file imgA) (.cons (.file imgB) .nil))))) ∧
    removeNodeFromTree sampleTree "zzz" = sampleTree := by
  have h := remove_correct sampleTree "3"
    (.folder "3" "Images" "/Images" (.cons (.file imgA) (.cons (.file imgB) .nil)))
    (by decide) rfl
  exact ⟨h.1, h.2.1, h.2.2.1 "b", h.2.2.2 "zzz" rfl⟩

/-! ## C9 — debounced save writes once, with the last tree -/

theorem foldl_scheduleSave (ts : List TreeList) (h : ts ≠ []) (s0 : SaveState) :
    ts.foldl scheduleSave s0 = { pending := some (ts.getLast h), writes := s0.writes } := by
  induction ts generalizing s0 with
  | nil => exact absurd rfl h
  | cons t rest ih =>
      cases rest with
      | nil => rfl
      | cons t2 rest2 =>
          rw [List.foldl_cons]
          rw [ih (List.cons_ne_nil _ _) (scheduleSave s0 t)]
          rw [List.getLast_cons (List.cons_ne_nil _ _)]
          rfl

/-- C9: for every non-empty burst of `scheduleSave` calls inside one debounce
window (no timer firing in between), the timer firing afterwards performs
exactly one write, of the tree passed to the last call — every intermediate
tree is superseded and never persisted. -/
theorem debounce_last_write_wins (s0 : SaveState) (ts : List TreeList) (h : ts ≠ []) :
    (fireSaveTimer (ts.foldl scheduleSave s0)).writes = s0.writes ++ [ts.getLast h] ∧
    (fireSaveTimer (ts.foldl scheduleSave s0)).pending = none := by
  rw [foldl_scheduleSave ts h s0]
  exact ⟨rfl, rfl⟩

/-- Witness for C9: three rapid saves persist only the third tree. -/
theorem debounce_last_write_wins_witness :
    (fireSaveTimer ([sampleTree, .nil, removeNodeFromTree sampleTree "3"].foldl
        scheduleSave { pending := none, writes := [] })).writes =
      [] ++ [[sampleTree, .nil, removeNodeFromTree sampleTree "3"].getLast (by simp)] ∧
    (fireSaveTimer ([sampleTree, .nil, removeNodeFromTree sampleTree "3"].foldl
        scheduleSave { pending := none, writes := [] })).pending = none :=
  debounce_last_write_wins { pending := none, writes := [] }
    [sampleTree, .nil, removeNodeFromTree sampleTree "3"] (by simp)

/-! ## C10 — guard: invalid source id makes propagation a complete no-op -/

/-- C10: if the id passed to `handlePropagateTag` does not resolve to an
image file node — absent, a folder, or a non-image file — the run is a
complete no-op: the tree is returned unchanged, no comparator call is made
(`compared = []`), nothing matches and the count is 0. -/
theorem propagateTag_invalid_source_noop (tree : TreeList) (fileId tag : String)
    (cmp : Comparator)
    (h : findNodeInTree tree fileId = none ∨
         (∃ i nm p c, findNodeInTree tree fileId = some (.folder i nm p c)) ∨
         (∃ f : FileNode, findNodeInTree tree fileId = some (.file f) ∧
            jsStartsWith f.mimeType "image/" = false)) :
    handlePropagateTag tree fileId tag cmp =
      { finalTree := tree, updatedCount := 0, scanSource := none,
        compared := [], matched := [] } := by
  rcases h with h | ⟨i, nm, p, c, h⟩ | ⟨f, h, hmime⟩
  · rw [handlePropagateTag, h]
  · rw [handlePropagateTag, h]
  · rw [handlePropagateTag, h]
    simp [hmime]

/-- Witness for C10: an absent id and a non-image file id are both no-ops on
the concrete workspace. -/
theorem propagateTag_invalid_source_noop_witness :
    handlePropagateTag sampleTree "zzz" "cat" cmpMatchB =
      { finalTree := sampleTree, updatedCount := 0, scanSource := none,
        compared := [], matched := [] } ∧
    handlePropagateTag sampleTree "2" "cat" cmpMatchB =
      { finalTree := sampleTree, updatedCount := 0, scanSource := none,
        compared := [], matched := [] } :=
  ⟨propagateTag_invalid_source_noop sampleTree "zzz" "cat" cmpMatchB (Or.inl rfl),
   propagateTag_invalid_source_noop sampleTree "2" "cat" cmpMatchB
     (Or.inr (Or.inr ⟨docR, rfl, rfl⟩))⟩

/-! ## C7 — analysis caching: a second request never re-invokes the analyzer -/

/-- C7: requesting analysis for a file node that already carries one is a
cache hit — the tree is unchanged and the analyzer is not invoked — and for
a node without one, a successful first call invokes the analyzer once and
stores the result, after which the immediately following call for the same
file is a cache hit: the analyzer runs at most once across the two calls. -/
theorem requestAnalysis_idempotent (tree : TreeList) (node : FileNode) (r : AnalysisResult)
    (a2 : Except String AnalysisResult)
    (hmem : findNodeInTree tree node.id = some (.file node))
    (hnoa : node.analysis = none) :
    (handleSelectNode tree node (.ok r)).analyzerInvoked = true ∧
    (∃ node1 : FileNode,
       fileAt (handleSelectNode tree node (.ok r)).tree node.id = some node1 ∧
       node1.analysis = some r ∧
       handleSelectNode (handleSelectNode tree node (.ok r)).tree node1 a2 =
         { tree := (handleSelectNode tree node (.ok r)).tree, analyzerInvoked := false,
           surfacedError := none }) ∧
    (∀ (t2 : TreeList) (n2 : FileNode), n2.analysis.isSome = true →
       handleSelectNode t2 n2 a2 =
         { tree := t2, analyzerInvoked := false, surfacedError := none }) := by
  have hsel : handleSelectNode tree node (.ok r) =
      { tree := updateNodeInTree tree node.id (updateAnalysisFn node.id r),
        analyzerInvoked := true, surfacedError := none } := by
    rw [handleSelectNode]
    rw [if_neg (by simp [hnoa])]
  refine ⟨by rw [hsel], ?_, ?_⟩
  · refine ⟨{ node with analysis := some r }, ?_, rfl, ?_⟩
    · rw [hsel]
      rw [fileAt_eq_bind]
      rw [findNodeInTree_updateNodeInTree_self tree node.id _
        (updateAnalysisFn_fileTransform node.id r)]
      rw [hmem]
      simp [updateAnalysisFn, nodeFilePart]
    · rw [hsel]
      rw [handleSelectNode.eq_def]
      rw [if_pos (by simp)]
  · intro t2 n2 h2
    rw [handleSelectNode.eq_def, if_pos h2]

/-- Witness for C7 on the concrete workspace: analyzing image `a` once
invokes the analyzer; the follow-up call is a cache hit. -/
theorem requestAnalysis_idempotent_witness :
    (handleSelectNode sampleTree imgA (.ok ⟨"a cat", "cat.png", ["cat"], "Image"⟩)).analyzerInvoked
        = true ∧
    (∃ node1 : FileNode,
       fileAt (handleSelectNode sampleTree imgA
           (.ok ⟨"a cat", "cat.png", ["cat"], "Image"⟩)).tree imgA.id = some node1 ∧
       node1.analysis = some ⟨"a cat", "cat.png", ["cat"], "Image"⟩ ∧
       handleSelectNode (handleSelectNode sampleTree imgA
           (.ok ⟨"a cat", "cat.png", ["cat"], "Image"⟩)).tree node1 (.error "quota") =
         { tree := (handleSelectNode sampleTree imgA
             (.ok ⟨"a cat", "cat.png", ["cat"], "Image"⟩)).tree,
           analyzerInvoked := false, surfacedError := none }) ∧
    (∀ (t2 : TreeList) (n2 : FileNode), n2.analysis.isSome = true →
       handleSelectNode t2 n2 (.error "quota") =
         { tree := t2, analyzerInvoked := false, surfacedError := none }) :=
  requestAnalysis_idempotent sampleTree imgA ⟨"a cat", "cat.png", ["cat"], "Image"⟩
    (.error "quota") rfl rfl

/-! ## C8 — analyzer failure leaves the tree untouched and is surfaced -/

/-- C8: if the external analyzer fails during a request for a file node, the
tree is returned completely unchanged (no partial analysis is stored
anywhere), the error is surfaced to the caller, and a subsequent call
invokes the analyzer again (retry is possible). -/
theorem requestAnalysis_failure_leaves_tree (tree : TreeList) (node : FileNode)
    (e : String) (r : AnalysisResult) (hnoa : node.analysis = none) :
    handleSelectNode tree node (.error e) =
      { tree := tree, analyzerInvoked := true, surfacedError := some e } ∧
    (handleSelectNode tree node (.ok r)).analyzerInvoked = true := by
  constructor
  · rw [handleSelectNode]
    rw [if_neg (by simp [hnoa])]
  · rw [handleSelectNode]
    rw [if_neg (by simp [hnoa])]

/-- Witness for C8: a failing analysis of image `a` leaves the workspace
exactly as it was and surfaces the message; the retry invokes again. -/
theorem requestAnalysis_failure_leaves_tree_witness :
    handleSelectNode sampleTree imgA (.error "Failed to get analysis from Gemini API.") =
      { tree := sampleTree, analyzerInvoked := true,
        surfacedError := some "Failed to get analysis from Gemini API." } ∧
    (handleSelectNode sampleTree imgA
        (.ok ⟨"a cat", "cat.png", ["cat"], "Image"⟩)).analyzerInvoked = true :=
  requestAnalysis_failure_leaves_tree sampleTree imgA
    "Failed to get analysis from Gemini API." ⟨"a cat", "cat.png", ["cat"], "Image"⟩ rfl

/-! ## C2 — the scan consumes a stale re-read of the source, not the updated node -/

/-- A comparator that matches everything and never fails. -/
def cmpAlwaysTrue : Comparator := fun _ _ => .ok true

/-- C2 fails on the code: `handlePropagateTag` adds the tag (the committed
tree's source node carries `"cat"`), but the delayed callback re-reads
`findNodeInTree` on the `treeData` captured by the closure — the pre-update
tree — so the source node the scan passes to every `compareImages` call is
the stale `imgA`, which does **not** carry the tag the step-1 add committed.
This evaluates the embedded code at the failing input. -/
theorem propagateTag_scan_uses_stale_source :
    (handlePropagateTag sampleTree "a" "cat" cmpAlwaysTrue).scanSource = some imgA ∧
    imgA.hasTag "cat" = false ∧
    hasTag (handleAddTag sampleTree "a" "cat") "a" "cat" = true :=
  ⟨rfl, rfl, rfl⟩

/-! ## C3 — a comparator failure is a non-match for that candidate only -/

/-- Totalization of a comparator at the comparison boundary: a rejected
comparison degrades to `false` ("no match"), exactly the contract
`compareImages` keeps and the scan's `try/catch` enforces. -/
def errorsAsNonMatch (cmp : Comparator) : Comparator :=
  fun a b => .ok (match cmp a b with | .ok v => v | .error _ => false)

/-- C3: a comparator failure on a candidate is recorded as a non-match for
that candidate only: the whole run is identical to the run with the
comparator totalized to return `false` where it failed (so no error crosses
the comparison boundary, the scan continues with all remaining candidates
and completes normally), and a candidate on which the comparator failed is
never in the matched set. -/
theorem comparator_failure_localized (tree : TreeList) (fileId tag : String) (cmp : Comparator) :
    handlePropagateTag tree fileId tag cmp =
      handlePropagateTag tree fileId tag (errorsAsNonMatch cmp) ∧
    (∀ s c, (handlePropagateTag tree fileId tag cmp).scanSource = some s →
       cmp s c = .error () →
       c ∉ (handlePropagateTag tree fileId tag cmp).matched) := by
  constructor
  · rfl
  · intro s c hs herr hmem
    cases hf : findNodeInTree tree fileId with
    | none =>
        rw [handlePropagateTag, hf] at hs
        cases hs
    | some n =>
        cases n with
        | folder i nm p ch =>
            rw [handlePropagateTag, hf] at hs
            cases hs
        | file sourceFile =>
            by_cases himg : jsStartsWith sourceFile.mimeType "image/" = true
            · have hrun : handlePropagateTag tree fileId tag cmp =
                  propagateTagToSimilarImages tree (handleAddTag tree fileId tag)
                    sourceFile tag cmp := by
                rw [handlePropagateTag, hf]
                simp [himg]
              have hscan : (propagateTagToSimilarImages tree (handleAddTag tree fileId tag)
                  sourceFile tag cmp).scanSource = some sourceFile := by
                rw [propagateTagToSimilarImages]
                split
                · rfl
                · rfl
              rw [hrun] at hs hmem
              rw [hscan] at hs
              cases hs
              rw [propagateTagToSimilarImages] at hmem
              split at hmem
              · simp at hmem
              · simp only at hmem
                have hp := List.of_mem_filter hmem
                rw [herr] at hp
                simp at hp
            · rw [handlePropagateTag, hf] at hs
              simp [himg] at hs

/-- A comparator that fails (rejects) exactly on candidate `b`. -/
def cmpFailOnB : Comparator := fun _ t => if t.id == "b" then .error () else .ok true

/-- Witness for C3: with a comparator that rejects on image `b`, the run
equals the totalized run and `b` is not matched. -/
theorem comparator_failure_localized_witness :
    handlePropagateTag sampleTree "a" "cat" cmpFailOnB =
      handlePropagateTag sampleTree "a" "cat" (errorsAsNonMatch cmpFailOnB) ∧
    imgB ∉ (handlePropagateTag sampleTree "a" "cat" cmpFailOnB).matched := by
  have h := comparator_failure_localized sampleTree "a" "cat" cmpFailOnB
  exact ⟨h.1, h.2 imgA imgB rfl rfl⟩

/-! ## C4 — tags stay duplicate-free under every core operation -/

theorem nodup_append_singleton {l : List String} {x : String}
    (hnd : l.Nodup) (hx : x ∉ l) : (l ++ [x]).Nodup := by
  rw [List.nodup_append]
  refine ⟨hnd, List.nodup_singleton x, ?_⟩
  intro y hy hy1
  rw [List.mem_singleton] at hy1
  subst hy1
  exact hx hy

theorem addTagFn_file_inv (fileId newTag : String) (f f2 : FileNode)
    (h : addTagFn fileId newTag (.file f) = .file f2) :
    f2 = f ∨
    ((f.analysis.getD ⟨"", "", [], "Unknown"⟩).tags.contains newTag = false ∧
      f2 = { f with analysis := some { f.analysis.getD ⟨"", "", [], "Unknown"⟩ with
        tags := (f.analysis.getD ⟨"", "", [], "Unknown"⟩).tags ++ [newTag] } }) := by
  rw [addTagFn] at h
  by_cases hid : f.id = fileId
  · rw [if_pos hid] at h
    by_cases hc : ((f.analysis.getD ⟨"", "", [], "Unknown"⟩).tags.contains newTag) = true
    · rw [if_pos hc] at h
      cases h
      exact Or.inl rfl
    · rw [if_neg hc] at h
      cases h
      exact Or.inr ⟨Bool.not_eq_true _ ▸ hc, rfl⟩
  · rw [if_neg hid] at h
    cases h
    exact Or.inl rfl

theorem recursivelyUpdateTagsNode_file_inv (ids : List String) (tg : String) (f f2 : FileNode)
    (h : recursivelyUpdateTagsNode ids tg (.file f) = .file f2) :
    f2 = f ∨
    (∃ a, f.analysis = some a ∧
      f2 = { f with analysis := some { a with tags := jsSetDedup (a.tags ++ [tg]) } }) ∨
    (f.analysis = none ∧ f2 = { f with analysis := some ⟨"", "", [tg], ""⟩ }) := by
  rw [recursivelyUpdateTagsNode] at h
  by_cases hc : ids.contains f.id = true
  · rw [if_pos hc] at h
    cases ha : f.analysis with
    | some a =>
        rw [ha] at h
        cases h
        exact Or.inr (Or.inl ⟨a, rfl, rfl⟩)
    | none =>
        rw [ha] at h
        cases h
        exact Or.inr (Or.inr ⟨rfl, rfl⟩)
  · rw [if_neg hc] at h
    cases h
    exact Or.inl rfl

theorem updateAnalysisFn_file_inv (nodeId : String) (r : AnalysisResult) (f f2 : FileNode)
    (h : updateAnalysisFn nodeId r (.file f) = .file f2) :
    f2 = f ∨ f2 = { f with analysis := some r } := by
  rw [updateAnalysisFn] at h
  by_cases hid : f.id = nodeId
  · rw [if_pos hid] at h
    cases h
    exact Or.inr rfl
  · rw [if_neg hid] at h
    cases h
    exact Or.inl rfl

/-- C4: the no-duplicate-tags invariant is preserved by every core tree
operation — adding a tag directly (`handleAddTag`), the propagation batch
apply (`recursivelyUpdateTags`, which always stores a deduplicated list),
and attaching an analysis whose tag list is duplicate-free — no matter how
many times the same tag is added. -/
theorem tags_nodup_invariant (tree : TreeList) (fileId tg : String) (ids : List String)
    (i : String) (r : AnalysisResult) :
    (TreeTagsNodup tree → TreeTagsNodup (handleAddTag tree fileId tg)) ∧
    (TreeTagsNodup tree → TreeTagsNodup (recursivelyUpdateTags ids tg tree)) ∧
    (TreeTagsNodup tree → r.tags.Nodup →
      TreeTagsNodup (updateNodeInTree tree i (updateAnalysisFn i r))) := by
  refine ⟨?_, ?_, ?_⟩
  · intro h f2 hf2 a2 ha2
    rcases mem_allFiles_updateNodeInTree tree fileId _ (addTagFn_fileTransform fileId tg)
        f2 hf2 with hf | ⟨f, hf, heq⟩
    · exact h f2 hf a2 ha2
    · rcases addTagFn_file_inv fileId tg f f2 heq with he | ⟨hc, he⟩
      · rw [he] at ha2; exact h f hf a2 ha2
      · rw [he] at ha2
        simp only [Option.some.injEq] at ha2
        subst ha2
        cases ha : f.analysis with
        | some a =>
            rw [ha] at hc
            simp only [Option.getD_some] at hc
            simp only [ha, Option.getD_some]
            refine nodup_append_singleton (h f hf a ha) ?_
            simpa using hc
        | none =>
            simp [ha]
  · intro h f2 hf2 a2 ha2
    obtain ⟨f, hf, heq⟩ := mem_allFiles_recursivelyUpdateTags ids tg tree f2 hf2
    rcases recursivelyUpdateTagsNode_file_inv ids tg f f2 heq with he | ⟨a, ha, he⟩ | ⟨ha, he⟩
    · rw [he] at ha2; exact h f hf a2 ha2
    · rw [he] at ha2
      simp only [Option.some.injEq] at ha2
      subst ha2
      exact jsSetDedup_nodup _
    · rw [he] at ha2
      simp only [Option.some.injEq] at ha2
      subst ha2
      simp
  · intro h hr f2 hf2 a2 ha2
    rcases mem_allFiles_updateNodeInTree tree i _ (updateAnalysisFn_fileTransform i r)
        f2 hf2 with hf | ⟨f, hf, heq⟩
    · exact h f2 hf a2 ha2
    · rcases updateAnalysisFn_file_inv i r f f2 heq with he | he
      · rw [he] at ha2; exact h f hf a2 ha2
      · rw [he] at ha2
        simp only [Option.some.injEq] at ha2
        subst ha2
        exact hr

/-- Witness for C4 at concrete inputs: adding `cat` twice to image `a`, the
batch apply over both images, and attaching a duplicate-free analysis all
keep tags duplicate-free. -/
theorem tags_nodup_invariant_witness :
    TreeTagsNodup (handleAddTag (handleAddTag sampleTree "a" "cat") "a" "cat") ∧
    TreeTagsNodup (recursivelyUpdateTags ["a", "b"] "cat" sampleTree) ∧
    TreeTagsNodup (updateNodeInTree sampleTree "b"
      (updateAnalysisFn "b" ⟨"s", "n", ["cat", "pet"], "Image"⟩)) := by
  have hbase : TreeTagsNodup sampleTree := by
    intro f hf a ha
    have hf2 : f ∈ [docR, imgA, imgB] := hf
    fin_cases hf2 <;> simp [docR, imgA, imgB] at ha
  refine ⟨?_, ?_, ?_⟩
  · exact (tags_nodup_invariant (handleAddTag sampleTree "a" "cat") "a" "cat" [] "x"
      ⟨"", "", [], ""⟩).1 ((tags_nodup_invariant sampleTree "a" "cat" [] "x"
      ⟨"", "", [], ""⟩).1 hbase)
  · exact (tags_nodup_invariant sampleTree "x" "cat" ["a", "b"] "x" ⟨"", "", [], ""⟩).2.1 hbase
  · exact (tags_nodup_invariant sampleTree "x" "x" [] "b"
      ⟨"s", "n", ["cat", "pet"], "Image"⟩).2.2 hbase (by decide)

/-! ## C1 — propagation correctness -/

/-- The candidate set of a propagation run over `tree` with source node `S`:
image files other than the source that do not already carry the tag
(the `otherImages` filter of `propagateTagToSimilarImages`). -/
def propagationCandidates (tree : TreeList) (S : FileNode) (tag : String) : List FileNode :=
  (findAllImageFiles tree).filter (fun img =>
    img.id != S.id && !((img.analysis.map (fun a => a.tags.contains tag)).getD false))

/-- The matched subset `M` of the candidates: those for which the comparator
resolved to `true` (a rejected comparison counts as a non-match). -/
def propagationMatches (tree : TreeList) (S : FileNode) (tag : String) (cmp : Comparator) :
    List FileNode :=
  (propagationCandidates tree S tag).filter (fun target =>
    match cmp S target with
    | .ok isMatch => isMatch
    | .error _ => false)

/-- The whole scan expressed through the candidate and matched sets. -/
theorem propagateRun_eq (staleTree committedTree : TreeList) (S : FileNode) (tag : String)
    (cmp : Comparator) :
    propagateTagToSimilarImages staleTree committedTree S tag cmp =
      { finalTree := if propagationMatches staleTree S tag cmp = [] then committedTree
          else recursivelyUpdateTags ((propagationMatches staleTree S tag cmp).map (fun f => f.id))
            tag committedTree,
        updatedCount := (propagationMatches staleTree S tag cmp).length,
        scanSource := some S,
        compared := propagationCandidates staleTree S tag,
        matched := propagationMatches staleTree S tag cmp } := by
  rw [propagateTagToSimilarImages]
  split
  next h =>
    have h' : propagationCandidates staleTree S tag = [] := h
    have hM : propagationMatches staleTree S tag cmp = [] := by
      show (propagationCandidates staleTree S tag).filter _ = []
      rw [h']
      rfl
    rw [h', hM]
    simp
  next h =>
    rfl

/-- A helper equation: `hasTag` through `fileAt`. -/
theorem hasTag_eq_fileAt (nodes : TreeList) (i t : String) :
    hasTag nodes i t = ((fileAt nodes i).map (fun f => FileNode.hasTag f t)).getD false := by
  rw [hasTag.eq_def]
  cases h : fileAt nodes i with
  | some f => rfl
  | none => rfl

/-- Adding a tag to the source: the source carries it afterwards and no
other id's tag-membership changes. -/
theorem hasTag_handleAddTag (tree : TreeList) (fileId tag : String) (S : FileNode)
    (hfind : findNodeInTree tree fileId = some (.file S)) (i : String) :
    hasTag (handleAddTag tree fileId tag) i tag = ((i == fileId) || hasTag tree i tag) := by
  by_cases hi : i = fileId
  · subst hi
    have hSid : S.id = i := by
      have := findNodeInTree_eq_id tree i _ hfind
      simpa using this
    obtain ⟨S2, heq, hS2id, hS2tag⟩ := addTagFn_result i tag S hSid
    rw [hasTag_eq_fileAt, fileAt_eq_bind, handleAddTag,
      findNodeInTree_updateNodeInTree_self tree i _ (addTagFn_fileTransform i tag), hfind]
    simp [heq, nodeFilePart, hS2tag]
  · rw [hasTag_eq_fileAt, hasTag_eq_fileAt, handleAddTag,
      fileAt_updateNodeInTree_ne tree i fileId _ (addTagFn_fileTransform fileId tag) hi]
    have hbeq : (i == fileId) = false := by simpa using hi
    rw [hbeq, Bool.false_or]

/-- The batch apply: an id carries the tag afterwards exactly when it was a
matched file id or already carried the tag. -/
theorem hasTag_recursivelyUpdateTags (ids : List String) (tg : String) (nodes : TreeList)
    (i : String) :
    hasTag (recursivelyUpdateTags ids tg nodes) i tg =
      ((ids.contains i && (fileAt nodes i).isSome) || hasTag nodes i tg) := by
  rw [hasTag_eq_fileAt, hasTag_eq_fileAt, fileAt_eq_bind, fileAt_eq_bind,
    findNodeInTree_recursivelyUpdateTags]
  cases hfind : findNodeInTree nodes i with
  | none => simp
  | some n =>
      cases n with
      | folder i0 nm p c =>
          have hfold : recursivelyUpdateTagsNode ids tg (.folder i0 nm p c) =
              .folder i0 nm p (recursivelyUpdateTags ids tg c) := by
            rw [recursivelyUpdateTagsNode]
          simp [hfold, nodeFilePart]
      | file g =>
          have hgid : g.id = i := by
            have := findNodeInTree_eq_id nodes i _ hfind
            simpa using this
          by_cases hmem : ids.contains g.id = true
          · have hmi : i ∈ ids := by
              have := hgid ▸ hmem
              simpa using this
            cases ha : g.analysis with
            | some a =>
                have htg : tg ∈ jsSetDedup (a.tags ++ [tg]) :=
                  (mem_jsSetDedup _ _).mpr (by simp)
                have hfold : recursivelyUpdateTagsNode ids tg (.file g) =
                    .file { g with analysis := some ({ a with tags := jsSetDedup (a.tags ++ [tg]) } : AnalysisResult) } := by
                  rw [recursivelyUpdateTagsNode, if_pos hmem, ha]
                simp [hfold, nodeFilePart, FileNode.hasTag, hmi, htg]
            | none =>
                have hfold : recursivelyUpdateTagsNode ids tg (.file g) =
                    .file { g with analysis := some ⟨"", "", [tg], ""⟩ } := by
                  rw [recursivelyUpdateTagsNode, if_pos hmem, ha]
                simp [hfold, nodeFilePart, FileNode.hasTag, hmi]
          · have hmi : i ∉ ids := by
              have : ¬ ids.contains i = true := by
                rw [← hgid]
                exact hmem
              simpa using this
            have hfold : recursivelyUpdateTagsNode ids tg (.file g) = .file g := by
              rw [recursivelyUpdateTagsNode, if_neg hmem]
            simp [hfold, nodeFilePart, hmi]

/-- A matched candidate's id resolves to a file node in the committed tree:
candidates are file nodes of the (stale) tree distinct from the source, and
the tag-add only rewrote the source node. -/
theorem matched_id_fileAt_isSome (tree : TreeList) (fileId tag : String) (cmp : Comparator)
    (S : FileNode) (hnd : (allIds tree).Nodup)
    (hfind : findNodeInTree tree fileId = some (.file S)) (i : String)
    (hmem : ((propagationMatches tree S tag cmp).map (fun c => c.id)).contains i = true) :
    (fileAt (handleAddTag tree fileId tag) i).isSome = true := by
  have hex : ∃ c ∈ propagationMatches tree S tag cmp, c.id = i := by
    simpa using hmem
  obtain ⟨c, hc, hci⟩ := hex
  have hcand : c ∈ propagationCandidates tree S tag := List.mem_of_mem_filter hc
  have hpred := List.of_mem_filter hcand
  have hcne : c.id ≠ S.id := by
    have h1 := hpred
    simp only [Bool.and_eq_true, bne_iff_ne] at h1
    exact h1.1
  have himgf : c ∈ findAllImageFiles tree := List.mem_of_mem_filter hcand
  have hall : c ∈ allFiles tree := (mem_findAllImageFiles tree c himgf).1
  have hfa : fileAt tree c.id = some c := fileAt_of_mem_allFiles tree c hnd hall
  have hSid : S.id = fileId := by
    have := findNodeInTree_eq_id tree fileId _ hfind
    simpa using this
  have hine : i ≠ fileId := by
    rw [← hci, ← hSid]
    exact hcne
  rw [handleAddTag,
    fileAt_updateNodeInTree_ne tree i fileId _ (addTagFn_fileTransform fileId tag) hine]
  rw [← hci, hfa]
  rfl

/-- C1: for a tree with unique ids, a source id resolving to an image file
`S`, and any comparator, the propagation run reports exactly `|M|` matches
(`M` = the candidates on which the comparator resolved `true`; failed
comparisons count as non-matches), and an id carries the tag in the final
tree exactly when it is the source, a matched candidate, or already carried
the tag — no other node gains or loses the tag. Both conclusions are
membership statements about the set `M`, independent of the order in which
candidates are enumerated and of which individual comparisons fail. -/
theorem propagateTag_correct (tree : TreeList) (fileId tag : String) (cmp : Comparator)
    (S : FileNode) (hnd : (allIds tree).Nodup)
    (hfind : findNodeInTree tree fileId = some (.file S))
    (himg : jsStartsWith S.mimeType "image/" = true) :
    (handlePropagateTag tree fileId tag cmp).updatedCount =
      (propagationMatches tree S tag cmp).length ∧
    (∀ i, hasTag (handlePropagateTag tree fileId tag cmp).finalTree i tag =
      ((i == fileId) ||
       ((propagationMatches tree S tag cmp).map (fun c => c.id)).contains i ||
       hasTag tree i tag)) := by
  have hrun : handlePropagateTag tree fileId tag cmp =
      propagateTagToSimilarImages tree (handleAddTag tree fileId tag) S tag cmp := by
    rw [handlePropagateTag, hfind]
    simp [himg]
  rw [hrun, propagateRun_eq]
  constructor
  · rfl
  · intro i
    show hasTag (if propagationMatches tree S tag cmp = [] then handleAddTag tree fileId tag
        else recursivelyUpdateTags ((propagationMatches tree S tag cmp).map (fun f => f.id))
          tag (handleAddTag tree fileId tag)) i tag = _
    by_cases hM : propagationMatches tree S tag cmp = []
    · rw [if_pos hM, hasTag_handleAddTag tree fileId tag S hfind i, hM]
      simp
    · rw [if_neg hM, hasTag_recursivelyUpdateTags,
        hasTag_handleAddTag tree fileId tag S hfind i]
      by_cases hmem : ((propagationMatches tree S tag cmp).map (fun c => c.id)).contains i = true
      · have hsome := matched_id_fileAt_isSome tree fileId tag cmp S hnd hfind i hmem
        have hmem' : ((propagationMatches tree S tag cmp).map (fun f => f.id)).contains i
            = true := hmem
        rw [hmem', hsome]
        simp
      · have hmem' : ((propagationMatches tree S tag cmp).map (fun f => f.id)).contains i
            = false := by simpa using hmem
        rw [hmem']
        simp

/-- Witness for C1 on the concrete workspace: propagating `cat` from image
`a` with a comparator matching exactly `b` reports `|M| = 1` and tags
exactly `a` and `b`. -/
theorem propagateTag_correct_witness :
    ((handlePropagateTag sampleTree "a" "cat" cmpMatchB).updatedCount =
      (propagationMatches sampleTree imgA "cat" cmpMatchB).length ∧
     hasTag (handlePropagateTag sampleTree "a" "cat" cmpMatchB).finalTree "b" "cat" =
      (("b" == "a") ||
       ((propagationMatches sampleTree imgA "cat" cmpMatchB).map (fun c => c.id)).contains "b" ||
       hasTag sampleTree "b" "cat")) ∧
    (handlePropagateTag sampleTree "a" "cat" cmpMatchB).updatedCount = 1 ∧
    hasTag (handlePropagateTag sampleTree "a" "cat" cmpMatchB).finalTree "a" "cat" = true ∧
    hasTag (handlePropagateTag sampleTree "a" "cat" cmpMatchB).finalTree "b" "cat" = true ∧
    hasTag (handlePropagateTag sampleTree "a" "cat" cmpMatchB).finalTree "2" "cat" = false := by
  have h := propagateTag_correct sampleTree "a" "cat" cmpMatchB imgA (by decide) rfl (by decide)
  exact ⟨⟨h.1, h.2 "b"⟩, rfl, rfl, rfl, rfl⟩
